import Mathlib

set_option maxRecDepth 4000

/-!
Verification development for the SendGrid inbound webhook receiver
(`webhook_receiver_sendgrid.py`).

The Python source is shallowly embedded over `List Char`.  Strings are
modelled as character lists; byte-level file contents are likewise
modelled as character lists (one character per byte, adequate for the
ASCII inputs exercised here).  Python's whitespace set and line
terminators are modelled by their ASCII members (space, tab, LF, CR,
VT, FF); the rarely used extra Unicode terminators of `str.splitlines`
are outside the model.  All definitions are computable and reduce in
the kernel, so concrete runs can be settled with `decide`.
-/

/-- ASCII model of Python's whitespace class (as used by `str.strip`
and the regex class `\s`): space, tab, LF, CR, VT, FF. -/
def pySpace (c : Char) : Bool :=
  c.toNat = 32 || c.toNat = 9 || c.toNat = 10 || c.toNat = 13 || c.toNat = 11 || c.toNat = 12

/-- ASCII model of the line terminators recognised by `str.splitlines`:
LF, CR, VT, FF (CR LF is handled as a single terminator by the splitter). -/
def lineBreak (c : Char) : Bool :=
  c.toNat = 10 || c.toNat = 13 || c.toNat = 11 || c.toNat = 12

/-- Python `s.lstrip()` over the modelled whitespace class. -/
def pyStripLeft (s : List Char) : List Char :=
  s.dropWhile pySpace

/-- Python `s.rstrip()` over the modelled whitespace class. -/
def pyStripRight (s : List Char) : List Char :=
  s.rdropWhile pySpace

/-- Python `s.strip()` over the modelled whitespace class. -/
def pyStrip (s : List Char) : List Char :=
  pyStripRight (pyStripLeft s)

/-- Prepend a character to the first line of a line list (auxiliary for
the line splitter: a non-terminator character extends the current line). -/
def consHead (c : Char) : List (List Char) → List (List Char)
  | [] => [[c]]
  | l :: ls => (c :: l) :: ls

/-- Python `s.splitlines()` over the modelled terminator set: CR LF
counts as one terminator; a trailing unterminated segment forms a line
only when non-empty. -/
def pySplitlines : List Char → List (List Char)
  | [] => []
  | [c] => if lineBreak c then [[]] else [[c]]
  | c :: c2 :: rest =>
    if c = '\r' ∧ c2 = '\n' then [] :: pySplitlines rest
    else if lineBreak c then [] :: pySplitlines (c2 :: rest)
    else consHead c (pySplitlines (c2 :: rest))

/-- The decision scan of `inbound` (source lines 176-181): walk the
body's lines in order; the first line whose stripped content is exactly
`"1"` or `"2"` decides, and the loop breaks there. -/
def decisionScan : List (List Char) → Option (List Char)
  | [] => none
  | l :: ls =>
    if pyStrip l = ['1'] then some ['1']
    else if pyStrip l = ['2'] then some ['2']
    else decisionScan ls

/-- A line on which the decision scan stops: its stripped content is
exactly `"1"` or exactly `"2"`. -/
def isDecisionLine (l : List Char) : Bool :=
  pyStrip l == ['1'] || pyStrip l == ['2']

/-- Python's truthiness fallback `a or b` on strings: `b` when `a` is empty. -/
def pyOr (a b : List Char) : List Char :=
  if a = [] then b else a

/-- The body the decision stage scans (source line 175):
`body = text.strip() or html_body`. -/
def chosenBody (text htmlBody : List Char) : List Char :=
  pyOr (pyStrip text) htmlBody

/-- The substring-containment fallback of `inbound` (source lines 182-186). -/
def fallbackDecision (body : List Char) : Option (List Char) :=
  if body.contains '1' && !(body.contains '2') then some ['1']
  else if body.contains '2' && !(body.contains '1') then some ['2']
  else none

/-- The complete decision computation of `inbound` (source lines 174-186):
line scan over the chosen body, then containment fallback. -/
def decisionOf (text htmlBody : List Char) : Option (List Char) :=
  match decisionScan (pySplitlines (chosenBody text htmlBody)) with
  | some d => some d
  | none => fallbackDecision (chosenBody text htmlBody)

/-- ASCII case folding as performed by the regex flag `(?i)`:
fold an upper-case letter code to its lower-case code. -/
def foldLower (c : Char) : Nat :=
  if 65 ≤ c.toNat ∧ c.toNat ≤ 90 then c.toNat + 32 else c.toNat

/-- The character class `[a-f0-9]` of `TOKEN_RE` under `(?i)`:
hex digits in either case. -/
def hexDigit (c : Char) : Bool :=
  (48 ≤ c.toNat && c.toNat ≤ 57) || (97 ≤ c.toNat && c.toNat ≤ 102) ||
    (65 ≤ c.toNat && c.toNat ≤ 70)

/-- One anchored attempt of `TOKEN_RE = (?i)token\s*:\s*([a-f0-9]{6,32})`
at the head of `s`.  The quantifiers are deterministic here: `\s*` is
greedy and neither `:` nor a hex digit is whitespace, so no backtracking
can occur; the capture takes the maximal hex run, capped at 32, and the
attempt fails if fewer than 6 hex characters follow. -/
def matchTokenAt (s : List Char) : Option (List Char) :=
  match s with
  | c1 :: c2 :: c3 :: c4 :: c5 :: rest =>
    if foldLower c1 = 116 ∧ foldLower c2 = 111 ∧ foldLower c3 = 107 ∧
        foldLower c4 = 101 ∧ foldLower c5 = 110 then
      if (rest.dropWhile pySpace).head? = some ':' then
        if 6 ≤ (((((rest.dropWhile pySpace).tail).dropWhile
            pySpace).takeWhile hexDigit).take 32).length then
          some (((((rest.dropWhile pySpace).tail).dropWhile
            pySpace).takeWhile hexDigit).take 32)
        else none
      else none
    else none
  | _ => none

/-- Searching with TOKEN_RE: leftmost match wins (source line 168);
the attempt at each start position is `matchTokenAt`. -/
def tokenSearch : List Char → Option (List Char)
  | [] => none
  | c :: rest =>
    match matchTokenAt (c :: rest) with
    | some tk => some tk
    | none => tokenSearch rest

/-- The token lookup of `inbound` (source line 168):
`TOKEN_RE.search(text) or TOKEN_RE.search(html_body)`. -/
def tokenOf (text htmlBody : List Char) : Option (List Char) :=
  match tokenSearch text with
  | some tk => some tk
  | none => tokenSearch htmlBody

/-- Outcome of the extraction core of `inbound`: a token/decision pair,
or one of the two typed failures. -/
inductive ExtractResult where
  | ok (token decision : List Char)
  | noToken
  | noDecision
deriving DecidableEq

/-- The extraction core of `inbound` (source lines 168-190): find a
token (text first, then HTML), then a decision; fail with `noToken`
before any decision work when no token matches, and with `noDecision`
when the decision stays unset. -/
def extract (text htmlBody : List Char) : ExtractResult :=
  match tokenOf text htmlBody with
  | none => .noToken
  | some tk =>
    match decisionOf text htmlBody with
    | none => .noDecision
    | some d => .ok tk d

/-- An HTTP response as far as the claims observe it: status code,
the `ok` flag of the JSON body, and an optional error/reason string. -/
structure HttpResp where
  status : Nat
  ok : Bool
  error : Option (List Char)
deriving DecidableEq

/-- Response of the `/inbound` handler (source lines 160-196): every
path answers HTTP 200; failures carry `ok:false` plus a reason string. -/
def inboundResp (text htmlBody : List Char) : HttpResp :=
  match extract text htmlBody with
  | .noToken => ⟨200, false, some ("TOKEN not found in message body".toList)⟩
  | .noDecision => ⟨200, false, some ("Decision (1/2) not found".toList)⟩
  | .ok _ _ => ⟨200, true, none⟩

/-- Response of the `/event` handler (source lines 356-372) as a
function of the payload's `event` field (`none` models a missing field
or an unparseable payload, both of which leave `kind` unequal to
`"purchase"`). -/
def eventResp (kind : Option (List Char)) : HttpResp :=
  if kind = some ("purchase".toList) then ⟨200, true, none⟩
  else ⟨400, false, some ("unsupported_event".toList)⟩

/-- A stored decision document (source line 192). -/
structure DecisionRecord where
  token : List Char
  decision : List Char
  sender : List Char
  recipient : List Char
  subject : List Char
deriving DecidableEq

/-- Server state touched by `/inbound`: the decisions directory as a
map from token (the file name stem) to the stored record, plus the
`decisions_total` counter. -/
structure ServerState where
  decisions : List Char → Option DecisionRecord
  decisionsTotal : Nat

/-- One `/inbound` request against the store (source lines 160-196):
on success write the record under the token's file name and bump the
counter; on failure leave the state untouched. -/
def inboundStep (st : ServerState) (frm toAddr subject text htmlBody : List Char) :
    ServerState × HttpResp :=
  match extract text htmlBody with
  | .ok tk d =>
    ({ decisions := fun t => if t = tk then some ⟨tk, d, frm, toAddr, subject⟩
                             else st.decisions t,
       decisionsTotal := st.decisionsTotal + 1 }, ⟨200, true, none⟩)
  | .noToken => (st, ⟨200, false, some ("TOKEN not found in message body".toList)⟩)
  | .noDecision => (st, ⟨200, false, some ("Decision (1/2) not found".toList)⟩)

/-- Invariant of the decisions store: every stored record is filed under
its own token, its decision is `"1"` or `"2"`, and its token is a
6-to-32-character hex string. -/
def storeInv (store : List Char → Option DecisionRecord) : Prop :=
  ∀ t r, store t = some r →
    r.token = t ∧ (r.decision = ['1'] ∨ r.decision = ['2']) ∧
      6 ≤ r.token.length ∧ r.token.length ≤ 32 ∧ ∀ c ∈ r.token, hexDigit c = true

/-- What `/decision/<token>` can find on disk: no file, a file whose
read or JSON parse raises, or a parsed record. -/
inductive ReadOutcome where
  | missing
  | unreadable
  | record (d : DecisionRecord)
deriving DecidableEq

/-- Response of `/decision/<token>` as far as the claims observe it. -/
structure ReadResp where
  status : Nat
  ok : Bool
  state : List Char
  data : Option DecisionRecord
deriving DecidableEq

/-- The `/decision/<token>` handler (source lines 198-207): missing file
answers 200 `pending`; a parsed record answers 200 `found` with the
data; a read or parse failure is caught and answered as 500 `error`. -/
def getDecision (store : List Char → ReadOutcome) (tok : List Char) : ReadResp :=
  match store tok with
  | .missing => ⟨200, false, "pending".toList, none⟩
  | .record d => ⟨200, true, "found".toList, some d⟩
  | .unreadable => ⟨500, false, "error".toList, none⟩

/-- Python `bytes.splitlines()` (used on the raw chunks in `_tail_file`):
terminators are LF, CR and CR LF only. -/
def bytesSplitlines : List Char → List (List Char)
  | [] => []
  | [c] => if c = '\n' ∨ c = '\r' then [[]] else [[c]]
  | c :: c2 :: rest =>
    if c = '\r' ∧ c2 = '\n' then [] :: bytesSplitlines rest
    else if c = '\n' ∨ c = '\r' then [] :: bytesSplitlines (c2 :: rest)
    else consHead c (bytesSplitlines (c2 :: rest))

/-- The read loop of `_tail_file` (source lines 105-112).  Iteration
`blockIdx` seeks to `max(size - blockIdx*1024, 0)` (Nat subtraction),
reads up to 1024 bytes, and appends that chunk's `splitlines()` to
`data`; the loop runs while `len(data) <= n` and the post-read file
position is positive.  The fuel argument only bounds the recursion: the
loop body appends at least one element per iteration (every reachable
read is non-empty), so `n + 2` units never run out on a call from
`tailFile`. -/
def tailLoop (file : List Char) (n : Nat) :
    Nat → Nat → Nat → List (List Char) → List (List Char)
  | 0, _, _, data => data
  | fuel + 1, blockIdx, pos, data =>
    if data.length ≤ n ∧ 0 < pos then
      let seekpos := file.length - blockIdx * 1024
      let chunk := (file.drop seekpos).take 1024
      tailLoop file n fuel (blockIdx + 1) (seekpos + chunk.length)
        (data ++ bytesSplitlines chunk)
    else data

/-- Function `_tail_file` (source lines 100-118): run the read loop from the end
of the file and keep `data[-n:]`. -/
def tailFile (file : List Char) (n : Nat) : List (List Char) :=
  let data := tailLoop file n (n + 2) 1 file.length []
  if data = [] then [] else data.drop (data.length - n)

/-- The clamp applied by `admin_logs` (source line 152):
`n = max(1, min(n, 5000))`. -/
def clampN (n : Int) : Nat :=
  (max 1 (min n 5000)).toNat

/-- The line list served by `/admin/logs` for a requested count
(source lines 148-154). -/
def adminLogsLines (file : List Char) (nArg : Int) : List (List Char) :=
  tailFile file (clampN nArg)

/-- Modelled from the spec: "a log-tail endpoint returning the last N
lines of an append-only newline-delimited JSON log file" — the last
`n` lines of the file in file order (all lines when fewer). -/
def lastLinesSpec (file : List Char) (n : Nat) : List (List Char) :=
  let lines := bytesSplitlines file
  lines.drop (lines.length - n)

/-- Value of a character in the standard Base64 alphabet. -/
def b64Val (c : Char) : Option Nat :=
  if 65 ≤ c.toNat ∧ c.toNat ≤ 90 then some (c.toNat - 65)
  else if 97 ≤ c.toNat ∧ c.toNat ≤ 122 then some (c.toNat - 97 + 26)
  else if 48 ≤ c.toNat ∧ c.toNat ≤ 57 then some (c.toNat - 48 + 52)
  else if c = '+' then some 62
  else if c = '/' then some 63
  else none

/-- CPython's `binascii.a2b_base64` in its default non-strict mode,
as a state machine over the input characters.  `quadPos` counts data
characters within the current 4-character group, `leftchar` holds the
pending bits, `pads` counts padding signs seen at the current group
tail, and `out` is the decoded byte accumulator.  A character outside
the alphabet is skipped.  A padding sign at quad positions 0 or 1 is
ignored; at quad positions 2 or 3 it counts toward completing the
group, and once `quadPos + pads` reaches 4 decoding ends successfully,
ignoring any remaining input.  A data character resets the padding
count and shifts its six bits in.  Input ending mid-group (1 to 3 data
characters past the last complete group, padding not completed) raises
in Python — `none` here. -/
def a2bBase64 : List Char → Nat → Nat → Nat → List Nat → Option (List Nat)
  | [], quadPos, _, _, out => if quadPos = 0 then some out else none
  | c :: rest, quadPos, leftchar, pads, out =>
    if c = '=' then
      if 2 ≤ quadPos then
        if 4 ≤ quadPos + (pads + 1) then some out
        else a2bBase64 rest quadPos leftchar (pads + 1) out
      else a2bBase64 rest quadPos leftchar pads out
    else
      match b64Val c with
      | none => a2bBase64 rest quadPos leftchar pads out
      | some v =>
        match quadPos with
        | 0 => a2bBase64 rest 1 v 0 out
        | 1 => a2bBase64 rest 2 (v % 16) 0 (out ++ [leftchar * 4 + v / 16])
        | 2 => a2bBase64 rest 3 (v % 4) 0 (out ++ [leftchar * 16 + v / 4])
        | _ => a2bBase64 rest 0 0 0 (out ++ [leftchar * 64 + v])

/-- Python `base64.b64decode(s)` with default arguments (`altchars`
unset, `validate=False`): the input goes straight to the lenient
`binascii.a2b_base64`. -/
def b64DecodePy (s : List Char) : Option (List Nat) :=
  a2bBase64 s 0 0 0 []

/-- Python `bytes.decode("utf-8")`: strict UTF-8 validation (overlong forms,
surrogates and out-of-range lead bytes all raise, i.e. yield `none`). -/
def utf8Decode : List Nat → Option (List Char)
  | [] => some []
  | b :: rest =>
    if b < 128 then
      (utf8Decode rest).map (fun l => Char.ofNat b :: l)
    else if 194 ≤ b ∧ b ≤ 223 then
      match rest with
      | b2 :: rest2 =>
        if 128 ≤ b2 ∧ b2 ≤ 191 then
          (utf8Decode rest2).map
            (fun l => Char.ofNat ((b - 192) * 64 + (b2 - 128)) :: l)
        else none
      | [] => none
    else if 224 ≤ b ∧ b ≤ 239 then
      match rest with
      | b2 :: b3 :: rest3 =>
        let lo2 := if b = 224 then 160 else 128
        let hi2 := if b = 237 then 159 else 191
        if lo2 ≤ b2 ∧ b2 ≤ hi2 ∧ 128 ≤ b3 ∧ b3 ≤ 191 then
          (utf8Decode rest3).map
            (fun l => Char.ofNat ((b - 224) * 4096 + (b2 - 128) * 64 + (b3 - 128)) :: l)
        else none
      | _ => none
    else if 240 ≤ b ∧ b ≤ 244 then
      match rest with
      | b2 :: b3 :: b4 :: rest4 =>
        let lo2 := if b = 240 then 144 else 128
        let hi2 := if b = 244 then 143 else 191
        if lo2 ≤ b2 ∧ b2 ≤ hi2 ∧ 128 ≤ b3 ∧ b3 ≤ 191 ∧ 128 ≤ b4 ∧ b4 ≤ 191 then
          (utf8Decode rest4).map
            (fun l => Char.ofNat ((b - 240) * 262144 + (b2 - 128) * 4096 +
              (b3 - 128) * 64 + (b4 - 128)) :: l)
        else none
      | _ => none
    else none

/-- Python `userpass.split(":", 1)` when it succeeds: the part before the
first colon and everything after it; `none` when no colon occurs
(Python raises `ValueError` on unpacking then). -/
def splitFirstColon : List Char → Option (List Char × List Char)
  | [] => none
  | c :: rest =>
    if c = ':' then some ([], rest)
    else (splitFirstColon rest).map (fun p => (c :: p.1, p.2))

/-- The decode pipeline of `_check_basic_auth` (source lines 93-95):
Base64-decode the credential part, UTF-8-decode the bytes. -/
def authDecode (b64str : List Char) : Option (List Char) :=
  (b64DecodePy b64str).bind utf8Decode

/-- The user/password pair `_check_basic_auth` compares against:
decode, then split at the first colon. -/
def authUserPass (hdr : List Char) : Option (List Char × List Char) :=
  (authDecode (pyStrip (hdr.drop 6))).bind splitFirstColon

/-- Function `_check_basic_auth` (source lines 87-98).  When either credential
is empty the gate accepts everything.  Otherwise the header must start
with `"Basic "`; the credential part is everything after the first
space (index 6, since `"Basic"` contains no space), stripped; any
decode or unpack failure returns `False` (the `except` arm). -/
def checkBasicAuth (adminUser adminPass hdr : List Char) : Bool :=
  if adminUser = [] ∨ adminPass = [] then true
  else if !(("Basic ".toList).isPrefixOf hdr) then false
  else
    match authUserPass hdr with
    | none => false
    | some (u, p) => u == adminUser && p == adminPass


/-- Auxiliary (proof device): drop trailing all-whitespace lines and
right-strip the resulting last line; the effect of right-stripping a
string on its line list. -/
def rstripLines : List (List Char) → List (List Char)
  | [] => []
  | l :: ls =>
    let ls' := rstripLines ls
    if ls' = [] then (if l.all pySpace then [] else [pyStripRight l])
    else l :: ls'

theorem lineBreak_space {c : Char} (h : lineBreak c = true) : pySpace c = true := by
  simp only [lineBreak, pySpace, Bool.or_eq_true, decide_eq_true_eq] at *
  omega

theorem not_space_break {c : Char} (h : pySpace c = false) : lineBreak c = false := by
  cases hb : lineBreak c
  · rfl
  · rw [lineBreak_space hb] at h; cases h

theorem splitlines_nil : pySplitlines [] = [] := rfl

theorem splitlines_crlf (rest : List Char) :
    pySplitlines ('\r' :: '\n' :: rest) = [] :: pySplitlines rest := by
  simp [pySplitlines]

theorem splitlines_cons_nonbreak {c : Char} (rest : List Char) (h : lineBreak c = false) :
    pySplitlines (c :: rest) = consHead c (pySplitlines rest) := by
  have hcr : c ≠ '\r' := by
    intro he; subst he; simp [lineBreak] at h
  cases rest with
  | nil => simp [pySplitlines, consHead, h]
  | cons c2 r => simp [pySplitlines, h, hcr]

theorem splitlines_cons_break {c : Char} (rest : List Char) (h : lineBreak c = true)
    (h2 : c = '\r' → rest.head? ≠ some '\n') :
    pySplitlines (c :: rest) = [] :: pySplitlines rest := by
  cases rest with
  | nil => simp [pySplitlines, h]
  | cons c2 r =>
    have hne : ¬(c = '\r' ∧ c2 = '\n') := by
      rintro ⟨hc, hc2⟩
      exact h2 hc (by simp [hc2])
    simp [pySplitlines, h, hne]

theorem consHead_ne_nil (c : Char) (L : List (List Char)) : consHead c L ≠ [] := by
  cases L <;> simp [consHead]

theorem splitlines_ne_nil {s : List Char} (h : s ≠ []) : pySplitlines s ≠ [] := by
  cases s with
  | nil => exact absurd rfl h
  | cons c rest =>
    cases rest with
    | nil =>
      by_cases hb : lineBreak c <;> simp [pySplitlines, hb]
    | cons c2 r =>
      by_cases hcr : c = '\r' ∧ c2 = '\n'
      · simp [pySplitlines, hcr]
      · by_cases hb : lineBreak c
        · simp [pySplitlines, hcr, hb]
        · rw [splitlines_cons_nonbreak _ (Bool.not_eq_true _ ▸ hb)]
          exact consHead_ne_nil _ _

theorem stripRight_nil : pyStripRight [] = [] := rfl

theorem stripRight_eq_nil_iff {l : List Char} :
    pyStripRight l = [] ↔ ∀ c ∈ l, pySpace c = true := by
  unfold pyStripRight
  simp [List.rdropWhile_eq_nil_iff]

theorem stripRight_all {l : List Char} (h : l.all pySpace = true) : pyStripRight l = [] :=
  stripRight_eq_nil_iff.mpr (by simpa [List.all_eq_true] using h)

theorem stripRight_cons_not_all {l : List Char} (c : Char) (h : l.all pySpace = false) :
    pyStripRight (c :: l) = c :: pyStripRight l := by
  induction l using List.reverseRecOn with
  | nil => simp at h
  | append_singleton l' x ih =>
    by_cases hx : pySpace x = true
    · have hl' : l'.all pySpace = false := by
        simp only [List.all_append, List.all_cons, List.all_nil] at h
        simp_all
      rw [show c :: (l' ++ [x]) = (c :: l') ++ [x] by rfl]
      unfold pyStripRight
      rw [List.rdropWhile_concat_pos _ _ _ hx, List.rdropWhile_concat_pos _ _ _ hx]
      exact ih hl'
    · rw [show c :: (l' ++ [x]) = (c :: l') ++ [x] by rfl]
      unfold pyStripRight
      rw [List.rdropWhile_concat_neg _ _ _ hx, List.rdropWhile_concat_neg _ _ _ hx]
      simp

theorem stripRight_cons_all {l : List Char} (c : Char) (h : l.all pySpace = true) :
    pyStripRight (c :: l) = if pySpace c then [] else [c] := by
  induction l using List.reverseRecOn with
  | nil =>
    unfold pyStripRight
    simpa using List.rdropWhile_singleton (p := pySpace) (x := c)
  | append_singleton l' x ih =>
    simp only [List.all_append, List.all_cons, List.all_nil, Bool.and_true,
      Bool.and_eq_true] at h
    have hx : pySpace x = true := h.2
    have hl' : l'.all pySpace = true := h.1
    rw [show c :: (l' ++ [x]) = (c :: l') ++ [x] by rfl]
    unfold pyStripRight
    rw [List.rdropWhile_concat_pos _ _ _ hx]
    exact ih hl'

theorem strip_cons_space {c : Char} (l : List Char) (h : pySpace c = true) :
    pyStrip (c :: l) = pyStrip l := by
  unfold pyStrip pyStripLeft
  rw [List.dropWhile_cons, if_pos h]

theorem stripLeft_cons_not_space {c : Char} (l : List Char) (h : pySpace c = false) :
    pyStripLeft (c :: l) = c :: l := by
  unfold pyStripLeft
  rw [List.dropWhile_cons, if_neg (by simp [h])]

theorem strip_cons_not_space {c : Char} (l : List Char) (h : pySpace c = false) :
    pyStrip (c :: l) = if l.all pySpace then [c] else c :: pyStripRight l := by
  unfold pyStrip
  rw [stripLeft_cons_not_space l h]
  by_cases ha : l.all pySpace
  · rw [stripRight_cons_all c ha, if_neg (by simp [h]), if_pos ha]
  · rw [stripRight_cons_not_all c (by simpa using ha), if_neg ha]

theorem strip_head {c : Char} (l : List Char) (h : pySpace c = false) :
    ∃ t, pyStrip (c :: l) = c :: t := by
  rw [strip_cons_not_space l h]
  by_cases ha : l.all pySpace
  · exact ⟨[], by simp [ha]⟩
  · exact ⟨pyStripRight l, by simp [ha]⟩

theorem strip_nil_of_all {l : List Char} (h : l.all pySpace = true) : pyStrip l = [] := by
  unfold pyStrip
  have h1 : pyStripLeft l = [] := by
    unfold pyStripLeft
    rw [List.dropWhile_eq_nil_iff]
    intro x hx
    simpa using (List.all_eq_true.mp h) x hx
  rw [h1, stripRight_nil]

theorem stripLR_comm (l : List Char) :
    pyStripLeft (pyStripRight l) = pyStripRight (pyStripLeft l) := by
  induction l with
  | nil => rfl
  | cons c l ih =>
    by_cases hc : pySpace c = true
    · by_cases ha : l.all pySpace
      · have hall : (c :: l).all pySpace = true := by simp [List.all_cons, hc, ha]
        rw [stripRight_all hall]
        have h2 : pyStripLeft (c :: l) = [] := by
          unfold pyStripLeft
          rw [List.dropWhile_eq_nil_iff]
          intro x hx
          simpa using (List.all_eq_true.mp hall) x hx
        rw [h2]
        rfl
      · rw [stripRight_cons_not_all c (by simpa using ha)]
        have h2 : pyStripLeft (c :: pyStripRight l) = pyStripLeft (pyStripRight l) := by
          unfold pyStripLeft
          rw [List.dropWhile_cons, if_pos hc]
        have h3 : pyStripLeft (c :: l) = pyStripLeft l := by
          unfold pyStripLeft
          rw [List.dropWhile_cons, if_pos hc]
        rw [h2, h3, ih]
    · have hc' : pySpace c = false := by simpa using hc
      rw [stripLeft_cons_not_space l hc']
      by_cases ha : l.all pySpace
      · rw [stripRight_cons_all c ha, if_neg (by simp [hc'])]
        rw [stripLeft_cons_not_space [] hc']
      · rw [stripRight_cons_not_all c (by simpa using ha)]
        rw [stripLeft_cons_not_space _ hc']

theorem stripRight_idem (l : List Char) :
    pyStripRight (pyStripRight l) = pyStripRight l := by
  unfold pyStripRight
  exact List.rdropWhile_idempotent _ _

theorem strip_stripRight (l : List Char) : pyStrip (pyStripRight l) = pyStrip l := by
  unfold pyStrip
  rw [stripLR_comm l, stripRight_idem]

theorem scan_eq_find (L : List (List Char)) :
    decisionScan L = (L.find? isDecisionLine).map pyStrip := by
  induction L with
  | nil => rfl
  | cons l ls ih =>
    by_cases h1 : pyStrip l = ['1']
    · rw [List.find?_cons_of_pos _ (by simp [isDecisionLine, h1])]
      simp [decisionScan, h1]
    · by_cases h2 : pyStrip l = ['2']
      · rw [List.find?_cons_of_pos _ (by simp [isDecisionLine, h2])]
        simp [decisionScan, h1, h2]
      · rw [List.find?_cons_of_neg _ (by simp [isDecisionLine, h1, h2])]
        simp [decisionScan, h1, h2, ih]

theorem scan_cons_skip {l : List Char} (L : List (List Char))
    (h1 : pyStrip l ≠ ['1']) (h2 : pyStrip l ≠ ['2']) :
    decisionScan (l :: L) = decisionScan L := by
  simp [decisionScan, h1, h2]

theorem scan_consHead_space {c : Char} (L : List (List Char)) (h : pySpace c = true) :
    decisionScan (consHead c L) = decisionScan L := by
  cases L with
  | nil =>
    have : pyStrip [c] = [] := strip_nil_of_all (by simp [h])
    simp [consHead, decisionScan, this]
  | cons l ls =>
    simp only [consHead]
    rw [show decisionScan ((c :: l) :: ls) =
        (if pyStrip (c :: l) = ['1'] then some ['1']
         else if pyStrip (c :: l) = ['2'] then some ['2'] else decisionScan ls) from rfl]
    rw [strip_cons_space l h]
    rfl

theorem scan_splitlines_stripLeft (s : List Char) :
    decisionScan (pySplitlines (pyStripLeft s)) = decisionScan (pySplitlines s) := by
  induction s with
  | nil => rfl
  | cons c rest ih =>
    by_cases hc : pySpace c = true
    · have h1 : pyStripLeft (c :: rest) = pyStripLeft rest := by
        unfold pyStripLeft
        rw [List.dropWhile_cons, if_pos hc]
      rw [h1, ih]
      by_cases hb : lineBreak c = true
      · cases rest with
        | nil =>
          rw [show pySplitlines [c] = [[]] by simp [pySplitlines, hb]]
          rw [scan_cons_skip _ (by decide) (by decide)]
          rfl
        | cons c2 r =>
          by_cases hcr : c = '\r' ∧ c2 = '\n'
          · obtain ⟨hc1, hc2⟩ := hcr
            subst hc1; subst hc2
            rw [splitlines_crlf]
            rw [splitlines_cons_break r (by decide) (by simp)]
          · rw [splitlines_cons_break (c2 :: r) hb
              (fun hcq => by simp [hcq] at hcr; simpa using hcr)]
            rw [scan_cons_skip _ (by decide) (by decide)]
      · rw [splitlines_cons_nonbreak rest (by simpa using hb)]
        rw [scan_consHead_space _ hc]
    · rw [stripLeft_cons_not_space rest (by simpa using hc)]

theorem rstripLines_cons_ne {ls : List (List Char)} (l : List Char)
    (h : rstripLines ls ≠ []) : rstripLines (l :: ls) = l :: rstripLines ls := by
  simp only [rstripLines]
  rw [if_neg h]

theorem rstripLines_cons_nil {ls : List (List Char)} (l : List Char)
    (h : rstripLines ls = []) :
    rstripLines (l :: ls) = if l.all pySpace then [] else [pyStripRight l] := by
  simp only [rstripLines]
  rw [if_pos h]

theorem rstripLines_nil_iff (L : List (List Char)) :
    rstripLines L = [] ↔ ∀ l ∈ L, l.all pySpace = true := by
  induction L with
  | nil => simp [rstripLines]
  | cons l ls ih =>
    by_cases hls : rstripLines ls = []
    · rw [rstripLines_cons_nil l hls]
      by_cases ha : l.all pySpace
      · rw [if_pos ha]
        constructor
        · intro _ x hx
          rcases List.mem_cons.mp hx with h | h
          · rw [h]; exact ha
          · exact ih.mp hls x h
        · intro _; rfl
      · simp only [if_neg ha]
        constructor
        · intro h; cases h
        · intro h
          exact absurd (h l (by simp)) (by simpa using ha)
    · rw [rstripLines_cons_ne l hls]
      constructor
      · intro h; cases h
      · intro h
        exact absurd (ih.mpr (fun x hx => h x (by simp [hx]))) hls

theorem stripRight_ne_nil {l : List Char} (h : l.all pySpace = false) :
    pyStripRight l ≠ [] := by
  intro h0
  have h1 := stripRight_eq_nil_iff.mp h0
  have h2 : l.all pySpace = true := List.all_eq_true.mpr (fun x hx => by simpa using h1 x hx)
  rw [h2] at h
  cases h

theorem stripRight_head {l : List Char} (h : pyStripRight l ≠ []) :
    (pyStripRight l).head? = l.head? := by
  have hpre : pyStripRight l <+: l := List.rdropWhile_prefix _ _
  obtain ⟨t, ht⟩ := hpre
  cases hx : pyStripRight l with
  | nil => exact absurd hx h
  | cons x xs =>
    rw [hx] at ht
    rw [← ht]
    simp

theorem splitlines_allSpace_aux : ∀ (n : Nat) (s : List Char), s.length ≤ n →
    s.all pySpace = true → ∀ l ∈ pySplitlines s, l.all pySpace = true := by
  intro n
  induction n with
  | zero =>
    intro s hlen
    rw [List.length_eq_zero.mp (Nat.le_zero.mp hlen)]
    intro _ l hl
    cases hl
  | succ n ih =>
    intro s hlen hall l hl
    cases s with
    | nil => cases hl
    | cons c rest =>
      rw [List.all_cons, Bool.and_eq_true] at hall
      by_cases hb : lineBreak c = true
      · cases rest with
        | nil =>
          rw [show pySplitlines [c] = [[]] by simp [pySplitlines, hb]] at hl
          simp at hl
          simp [hl]
        | cons c2 r =>
          by_cases hcr : c = '\r' ∧ c2 = '\n'
          · obtain ⟨h1, h2⟩ := hcr
            subst h1; subst h2
            rw [splitlines_crlf] at hl
            rcases List.mem_cons.mp hl with h | h
            · simp [h]
            · refine ih r (by simp at hlen; omega) ?_ l h
              rw [List.all_cons, Bool.and_eq_true] at hall
              exact hall.2.2
          · rw [splitlines_cons_break (c2 :: r) hb
              (fun hcq => by simp [hcq] at hcr; simpa using hcr)] at hl
            rcases List.mem_cons.mp hl with h | h
            · simp [h]
            · exact ih (c2 :: r) (by simp at hlen ⊢; omega) hall.2 l h
      · rw [splitlines_cons_nonbreak rest (by simpa using hb)] at hl
        cases hsr : pySplitlines rest with
        | nil =>
          rw [hsr] at hl
          simp [consHead] at hl
          simp [hl, hall.1]
        | cons l0 ls =>
          rw [hsr] at hl
          simp only [consHead] at hl
          rcases List.mem_cons.mp hl with h | h
          · subst h
            rw [List.all_cons, Bool.and_eq_true]
            refine ⟨hall.1, ?_⟩
            exact ih rest (by simp at hlen; omega) hall.2 l0 (by rw [hsr]; simp)
          · exact ih rest (by simp at hlen; omega) hall.2 l (by rw [hsr]; simp [h])

theorem splitlines_allSpace {s : List Char} (h : s.all pySpace = true) :
    ∀ l ∈ pySplitlines s, l.all pySpace = true :=
  splitlines_allSpace_aux s.length s le_rfl h

theorem mem_splitlines_aux : ∀ (n : Nat) (s : List Char), s.length ≤ n →
    ∀ c ∈ s, pySpace c = false → ∃ l ∈ pySplitlines s, c ∈ l := by
  intro n
  induction n with
  | zero =>
    intro s hlen
    rw [List.length_eq_zero.mp (Nat.le_zero.mp hlen)]
    intro c hc
    cases hc
  | succ n ih =>
    intro s hlen c hc hcs
    cases s with
    | nil => cases hc
    | cons d rest =>
      rcases List.mem_cons.mp hc with hcd | hcr
      · subst hcd
        have hb : lineBreak c = false := not_space_break hcs
        rw [splitlines_cons_nonbreak rest hb]
        cases hsr : pySplitlines rest with
        | nil => exact ⟨[c], by simp [consHead]⟩
        | cons l0 ls => exact ⟨c :: l0, by simp [consHead]⟩
      · by_cases hb : lineBreak d = true
        · cases rest with
          | nil => cases hcr
          | cons c2 r =>
            by_cases hcr2 : d = '\r' ∧ c2 = '\n'
            · obtain ⟨h1, h2⟩ := hcr2
              subst h1; subst h2
              have hcne : c ≠ '\n' := by
                intro he; subst he; simp [pySpace] at hcs
              have hcr3 : c ∈ r := by
                rcases List.mem_cons.mp hcr with h | h
                · exact absurd h hcne
                · exact h
              obtain ⟨l, hl, hcl⟩ := ih r (by simp at hlen; omega) c hcr3 hcs
              exact ⟨l, by rw [splitlines_crlf]; simp [hl], hcl⟩
            · obtain ⟨l, hl, hcl⟩ :=
                ih (c2 :: r) (by simp at hlen ⊢; omega) c hcr hcs
              refine ⟨l, ?_, hcl⟩
              rw [splitlines_cons_break (c2 :: r) hb
                (fun hcq => by simp [hcq] at hcr2; simpa using hcr2)]
              simp [hl]
        · obtain ⟨l, hl, hcl⟩ := ih rest (by simp at hlen; omega) c hcr hcs
          rw [splitlines_cons_nonbreak rest (by simpa using hb)]
          cases hsr : pySplitlines rest with
          | nil => rw [hsr] at hl; cases hl
          | cons l0 ls =>
            rw [hsr] at hl
            rcases List.mem_cons.mp hl with h | h
            · exact ⟨d :: l0, by simp [consHead], List.mem_cons_of_mem d (h ▸ hcl)⟩
            · exact ⟨l, by simp [consHead, h], hcl⟩

theorem rstrip_splitlines_ne_nil {s : List Char} (h : s.all pySpace = false) :
    rstripLines (pySplitlines s) ≠ [] := by
  intro hn
  have hall := (rstripLines_nil_iff _).mp hn
  rw [List.all_eq_false] at h
  obtain ⟨c, hc, hcs⟩ := h
  obtain ⟨l, hl, hcl⟩ :=
    mem_splitlines_aux s.length s le_rfl c hc (by simpa using hcs)
  have := List.all_eq_true.mp (hall l hl) c hcl
  simp_all

theorem scan_none_of_allSpace (L : List (List Char))
    (h : ∀ l ∈ L, l.all pySpace = true) : decisionScan L = none := by
  induction L with
  | nil => rfl
  | cons l ls ih =>
    have hs : pyStrip l = [] := strip_nil_of_all (h l (by simp))
    rw [scan_cons_skip ls (by simp [hs]) (by simp [hs])]
    exact ih (fun x hx => h x (by simp [hx]))

theorem scan_rstrip (L : List (List Char)) :
    decisionScan (rstripLines L) = decisionScan L := by
  induction L with
  | nil => rfl
  | cons l ls ih =>
    by_cases hls : rstripLines ls = []
    · have hlsnone : decisionScan ls = none :=
        scan_none_of_allSpace ls ((rstripLines_nil_iff ls).mp hls)
      rw [rstripLines_cons_nil l hls]
      by_cases ha : l.all pySpace
      · rw [if_pos ha]
        have hs : pyStrip l = [] := strip_nil_of_all ha
        rw [show decisionScan ([] : List (List Char)) = none from rfl,
          scan_cons_skip ls (by simp [hs]) (by simp [hs]), hlsnone]
      · rw [if_neg ha]
        have hss : pyStrip (pyStripRight l) = pyStrip l := strip_stripRight l
        by_cases h1 : pyStrip l = ['1']
        · simp [decisionScan, hss, h1]
        · by_cases h2 : pyStrip l = ['2']
          · simp [decisionScan, hss, h1, h2]
          · rw [scan_cons_skip ls h1 h2,
              scan_cons_skip [] (by simp [hss, h1]) (by simp [hss, h2]), hlsnone]
            rfl
    · rw [rstripLines_cons_ne l hls]
      by_cases h1 : pyStrip l = ['1']
      · simp [decisionScan, h1]
      · by_cases h2 : pyStrip l = ['2']
        · simp [decisionScan, h1, h2]
        · rw [scan_cons_skip _ h1 h2, scan_cons_skip _ h1 h2, ih]

theorem consHead_rstripLines (c : Char) (L : List (List Char))
    (h : rstripLines L ≠ []) :
    consHead c (rstripLines L) = rstripLines (consHead c L) := by
  cases L with
  | nil => exact absurd rfl h
  | cons l0 ls =>
    by_cases hls : rstripLines ls = []
    · rw [rstripLines_cons_nil l0 hls] at h ⊢
      by_cases ha : l0.all pySpace
      · rw [if_pos ha] at h
        exact absurd rfl h
      · rw [if_neg ha]
        have ha2 : (c :: l0).all pySpace = false := by
          rw [List.all_cons]
          simp [by simpa using ha]
        simp only [consHead]
        rw [rstripLines_cons_nil (c :: l0) hls, if_neg (by simp [ha2]),
          stripRight_cons_not_all c (by simpa using ha)]
    · rw [rstripLines_cons_ne l0 hls]
      simp only [consHead]
      rw [rstripLines_cons_ne (c :: l0) hls]

theorem splitlines_stripRight_aux : ∀ (n : Nat) (s : List Char), s.length ≤ n →
    pySplitlines (pyStripRight s) = rstripLines (pySplitlines s) := by
  intro n
  induction n with
  | zero =>
    intro s hlen
    rw [List.length_eq_zero.mp (Nat.le_zero.mp hlen)]
    rfl
  | succ n ih =>
    intro s hlen
    cases s with
    | nil => rfl
    | cons c rest =>
      by_cases hall : rest.all pySpace = true
      · rw [stripRight_cons_all c hall]
        by_cases hc : pySpace c = true
        · rw [if_pos hc]
          have hallS : (c :: rest).all pySpace = true := by
            rw [List.all_cons, hc, hall]; rfl
          rw [splitlines_nil]
          exact ((rstripLines_nil_iff _).mpr (splitlines_allSpace hallS)).symm
        · have hc' : pySpace c = false := by simpa using hc
          have hb : lineBreak c = false := not_space_break hc'
          rw [if_neg (by simp [hc'])]
          rw [show pySplitlines [c] = [[c]] by simp [pySplitlines, hb]]
          rw [splitlines_cons_nonbreak rest hb]
          cases hsr : pySplitlines rest with
          | nil =>
            simp only [consHead]
            rw [rstripLines_cons_nil [c] (show rstripLines [] = [] from rfl),
              if_neg (by simp [List.all_cons, hc'])]
            unfold pyStripRight
            rw [List.rdropWhile_singleton, if_neg (by simp [hc'])]
          | cons l0 ls =>
            have hlines := splitlines_allSpace hall
            rw [hsr] at hlines
            simp only [consHead]
            have hls0 : rstripLines ls = [] :=
              (rstripLines_nil_iff ls).mpr (fun x hx => hlines x (by simp [hx]))
            rw [rstripLines_cons_nil (c :: l0) hls0]
            have hl0 : l0.all pySpace = true := hlines l0 (by simp)
            rw [if_neg (by simp [List.all_cons, hc']),
              stripRight_cons_all c hl0, if_neg (by simp [hc'])]
      · have hall' : rest.all pySpace = false := by simpa using hall
        rw [stripRight_cons_not_all c hall']
        have hrne : rstripLines (pySplitlines rest) ≠ [] :=
          rstrip_splitlines_ne_nil hall'
        by_cases hcr : c = '\r' ∧ rest.head? = some '\n'
        · obtain ⟨hc1, hhd⟩ := hcr
          subst hc1
          cases rest with
          | nil => cases hhd
          | cons c2 r =>
            have hc2 : c2 = '\n' := by simpa using hhd
            subst hc2
            have hrall : r.all pySpace = false := by
              rw [List.all_cons] at hall'
              simpa [pySpace] using hall'
            rw [stripRight_cons_not_all '\n' hrall]
            rw [splitlines_crlf, splitlines_crlf]
            rw [ih r (by simp at hlen; omega)]
            rw [rstripLines_cons_ne [] (rstrip_splitlines_ne_nil hrall)]
        · by_cases hb : lineBreak c = true
          · have hd2 : c = '\r' → rest.head? ≠ some '\n' :=
              fun h1 h2 => hcr ⟨h1, h2⟩
            have hsne : pyStripRight rest ≠ [] := stripRight_ne_nil hall'
            rw [splitlines_cons_break (pyStripRight rest) hb
              (fun h1 => by rw [stripRight_head hsne]; exact hd2 h1)]
            rw [splitlines_cons_break rest hb hd2]
            rw [ih rest (by simp at hlen; omega)]
            rw [rstripLines_cons_ne [] hrne]
          · have hb' : lineBreak c = false := by simpa using hb
            rw [splitlines_cons_nonbreak (pyStripRight rest) hb']
            rw [splitlines_cons_nonbreak rest hb']
            rw [ih rest (by simp at hlen; omega)]
            exact consHead_rstripLines c _ hrne

theorem splitlines_stripRight (s : List Char) :
    pySplitlines (pyStripRight s) = rstripLines (pySplitlines s) :=
  splitlines_stripRight_aux s.length s le_rfl

theorem scan_splitlines_strip (s : List Char) :
    decisionScan (pySplitlines (pyStrip s)) = decisionScan (pySplitlines s) := by
  unfold pyStrip
  rw [splitlines_stripRight, scan_rstrip, scan_splitlines_stripLeft]

/-- Claim C1: for every pair (text, html), the decision line-scan
operates on the plain text when it is non-empty after trimming and on
the HTML body otherwise, and returns the stripped content of the first
line (in line order) whose trimmed content is exactly "1" or exactly
"2" — `List.find?` inspects each line at most once, so no line is
examined twice. -/
theorem claim_c1 (text htmlBody : List Char) :
    decisionScan (pySplitlines (chosenBody text htmlBody)) =
      ((pySplitlines (if pyStrip text = [] then htmlBody else text)).find?
        isDecisionLine).map pyStrip := by
  unfold chosenBody pyOr
  by_cases h : pyStrip text = []
  · rw [if_pos h, if_pos h, scan_eq_find]
  · rw [if_neg h, if_neg h, ← scan_eq_find]
    exact scan_splitlines_strip text

/-- Claim C4: the token is searched in the plain text first and in the
HTML body only when the plain text has no match; extraction fails with
`noToken` exactly when both searches fail (and then no decision scan is
reached: `extract` returns before the decision computation), and any
successful extraction carries the token found by that search. -/
theorem claim_c4 (text htmlBody : List Char) :
    (extract text htmlBody = .noToken ↔
      tokenSearch text = none ∧ tokenSearch htmlBody = none) ∧
    (∀ tk, tokenSearch text = some tk → tokenOf text htmlBody = some tk) ∧
    (tokenSearch text = none → tokenOf text htmlBody = tokenSearch htmlBody) ∧
    (∀ tk d, extract text htmlBody = .ok tk d → tokenOf text htmlBody = some tk) := by
  cases ht : tokenSearch text with
  | some tk =>
    have hto : tokenOf text htmlBody = some tk := by simp [tokenOf, ht]
    refine ⟨?_, ?_, ?_, ?_⟩
    · constructor
      · intro h
        simp only [extract, hto] at h
        cases hd : decisionOf text htmlBody <;> rw [hd] at h <;> cases h
      · rintro ⟨h1, _⟩
        simp at h1
    · intro tk' h'
      cases h'
      exact hto
    · intro h'
      simp at h'
    · intro tk' d h'
      simp only [extract, hto] at h'
      cases hd : decisionOf text htmlBody with
      | none => rw [hd] at h'; cases h'
      | some d' =>
        rw [hd] at h'
        cases h'
        exact hto
  | none =>
    have hto : tokenOf text htmlBody = tokenSearch htmlBody := by simp [tokenOf, ht]
    refine ⟨?_, ?_, ?_, ?_⟩
    · constructor
      · intro h
        refine ⟨rfl, ?_⟩
        cases hh : tokenSearch htmlBody with
        | none => rfl
        | some tk =>
          simp only [extract, hto, hh] at h
          cases hd : decisionOf text htmlBody <;> rw [hd] at h <;> cases h
      · rintro ⟨_, h2⟩
        simp [extract, hto, h2]
    · intro tk' h'
      simp at h'
    · intro _
      exact hto
    · intro tk' d h'
      simp only [extract, hto] at h'
      cases hh : tokenSearch htmlBody with
      | none => rw [hh] at h'; cases h'
      | some tk =>
        rw [hh] at h'
        cases hd : decisionOf text htmlBody with
        | none => rw [hd] at h'; cases h'
        | some d' =>
          rw [hd] at h'
          cases h'
          rw [hto, hh]

/-- Claim C4 witness: a concrete run for each hypothesis-bearing
component — the plain-text match takes priority over the HTML body,
and when neither body matches, extraction fails with `noToken`. -/
theorem claim_c4_witness :
    tokenOf ("x token: abcdef1".toList) ("token: 22bb44cc".toList) =
      some ("abcdef1".toList) ∧
    extract ("hello".toList) ("world 1".toList) = .noToken :=
  ⟨(claim_c4 _ _).2.1 _ (by decide), (claim_c4 _ _).1.mpr ⟨by decide, by decide⟩⟩

/-- Claim C5: the inbound endpoint answers HTTP 200 on every input and
carries a reason string whenever its ok-flag is false, while the event
endpoint answers HTTP 400 exactly when the payload's event field is
anything other than "purchase". -/
theorem claim_c5 (text htmlBody : List Char) (kind : Option (List Char)) :
    (inboundResp text htmlBody).status = 200 ∧
    ((inboundResp text htmlBody).ok = false →
      (inboundResp text htmlBody).error ≠ none) ∧
    ((eventResp kind).status = 400 ↔ kind ≠ some ("purchase".toList)) := by
  refine ⟨?_, ?_, ?_⟩
  · cases h : extract text htmlBody <;> simp [inboundResp, h]
  · cases h : extract text htmlBody <;> simp [inboundResp, h]
  · unfold eventResp
    by_cases hk : kind = some ("purchase".toList)
    · rw [if_pos hk]
      simp [hk]
    · rw [if_neg hk]
      simpa using hk

/-- Claim C5 witness: a concrete failing inbound request carries a
reason string, and a concrete non-purchase event is answered with 400. -/
theorem claim_c5_witness :
    (inboundResp [] []).error ≠ none ∧
    (eventResp (some ("refund".toList))).status = 400 :=
  ⟨(claim_c5 [] [] none).2.1 (by decide),
    ((claim_c5 [] [] (some ("refund".toList))).2.2).mpr (by decide)⟩

/-- Claim C6: the single-record read endpoint answers 200 with status
"pending" when the record is missing (never 404), 200 with status
"found" and the stored data when the record parses, and a caught
read/parse failure as a generic 500 "error" response; the handler is a
total function, so no input crashes it. -/
theorem claim_c6 (store : List Char → ReadOutcome) (tok : List Char) :
    (store tok = .missing →
      getDecision store tok = ⟨200, false, "pending".toList, none⟩) ∧
    (∀ d, store tok = .record d →
      getDecision store tok = ⟨200, true, "found".toList, some d⟩) ∧
    (store tok = .unreadable →
      (getDecision store tok).status = 500 ∧ (getDecision store tok).ok = false ∧
        (getDecision store tok).state = "error".toList) ∧
    (getDecision store tok).status ≠ 404 := by
  refine ⟨fun h => by simp [getDecision, h],
    fun d h => by simp [getDecision, h],
    fun h => by simp [getDecision, h], ?_⟩
  cases h : store tok <;> simp [getDecision, h]

/-- Claim C6 witness: concrete stores exercising the pending and error
paths of the single-record read endpoint. -/
theorem claim_c6_witness :
    getDecision (fun _ => ReadOutcome.missing) ("abc123".toList) =
      ⟨200, false, "pending".toList, none⟩ ∧
    (getDecision (fun _ => ReadOutcome.unreadable) ("abc123".toList)).status = 500 :=
  ⟨(claim_c6 _ _).1 rfl, ((claim_c6 _ _).2.2.1 rfl).1⟩

theorem scan_none_of_no_match (L : List (List Char))
    (h : ∀ l ∈ L, pyStrip l ≠ ['1'] ∧ pyStrip l ≠ ['2']) : decisionScan L = none := by
  induction L with
  | nil => rfl
  | cons l ls ih =>
    obtain ⟨h1, h2⟩ := h l (by simp)
    rw [scan_cons_skip ls h1 h2]
    exact ih (fun x hx => h x (by simp [hx]))

theorem fallback_cases (body : List Char) :
    (fallbackDecision body = some ['1'] ↔ ('1' ∈ body ∧ '2' ∉ body)) ∧
    (fallbackDecision body = some ['2'] ↔ ('2' ∈ body ∧ '1' ∉ body)) ∧
    (fallbackDecision body = none ↔
      (('1' ∉ body ∧ '2' ∉ body) ∨ ('1' ∈ body ∧ '2' ∈ body))) := by
  by_cases h1 : '1' ∈ body <;> by_cases h2 : '2' ∈ body <;>
    simp [fallbackDecision, h1, h2]

/-- Claim C2: on a body none of whose lines has trimmed content exactly
"1" or "2", extraction (past a found token) is decided by the
containment fallback: decision "1" iff the body contains '1' and not
'2', decision "2" symmetrically, and `noDecision` when both digits are
absent or both present. -/
theorem claim_c2 (text htmlBody : List Char)
    (hlines : ∀ l ∈ pySplitlines (chosenBody text htmlBody),
      pyStrip l ≠ ['1'] ∧ pyStrip l ≠ ['2']) :
    ∀ tk, tokenOf text htmlBody = some tk →
      ((extract text htmlBody = .ok tk ['1'] ↔
        ('1' ∈ chosenBody text htmlBody ∧ '2' ∉ chosenBody text htmlBody)) ∧
       (extract text htmlBody = .ok tk ['2'] ↔
        ('2' ∈ chosenBody text htmlBody ∧ '1' ∉ chosenBody text htmlBody)) ∧
       (extract text htmlBody = .noDecision ↔
        (('1' ∉ chosenBody text htmlBody ∧ '2' ∉ chosenBody text htmlBody) ∨
         ('1' ∈ chosenBody text htmlBody ∧ '2' ∈ chosenBody text htmlBody)))) := by
  intro tk htk
  have hscan : decisionScan (pySplitlines (chosenBody text htmlBody)) = none :=
    scan_none_of_no_match _ hlines
  have hdec : decisionOf text htmlBody = fallbackDecision (chosenBody text htmlBody) := by
    unfold decisionOf
    rw [hscan]
  have hext : extract text htmlBody =
      match fallbackDecision (chosenBody text htmlBody) with
      | none => .noDecision
      | some d => .ok tk d := by
    unfold extract
    rw [htk, hdec]
  obtain ⟨f1, f2, f0⟩ := fallback_cases (chosenBody text htmlBody)
  refine ⟨?_, ?_, ?_⟩
  · rw [hext]
    cases hf : fallbackDecision (chosenBody text htmlBody) with
    | none =>
      simp only []
      constructor
      · intro h; cases h
      · intro h
        exact absurd (f1.mpr h) (by rw [hf]; intro h'; cases h')
    | some d =>
      simp only []
      constructor
      · intro h
        cases h
        exact f1.mp hf
      · intro h
        have := f1.mpr h
        rw [hf] at this
        cases this
        rfl
  · rw [hext]
    cases hf : fallbackDecision (chosenBody text htmlBody) with
    | none =>
      simp only []
      constructor
      · intro h; cases h
      · intro h
        exact absurd (f2.mpr h) (by rw [hf]; intro h'; cases h')
    | some d =>
      simp only []
      constructor
      · intro h
        cases h
        exact f2.mp hf
      · intro h
        have := f2.mpr h
        rw [hf] at this
        cases this
        rfl
  · rw [hext]
    cases hf : fallbackDecision (chosenBody text htmlBody) with
    | none =>
      simp only []
      constructor
      · intro _
        exact f0.mp hf
      · intro _
        trivial
    | some d =>
      simp only []
      constructor
      · intro h; cases h
      · intro h
        have := f0.mpr h
        rw [hf] at this
        cases this

/-- Claim C2 witness: the spec's own example — a body with a valid
token (in the HTML part) whose text is "thanks, 1 and 2 both work" has
no exact-match line and both digits present, so extraction fails with
`noDecision`. -/
theorem claim_c2_witness :
    extract ("thanks, 1 and 2 both work".toList) ("token: abc123".toList) =
      .noDecision :=
  (((claim_c2 _ _ (by decide)) ("abc123".toList) (by decide)).2.2).mpr
    (Or.inr ⟨by decide, by decide⟩)

/-- Claim C8 (code bug): on the two-line file "a\nb\n" with requested
count 3 the tail loop re-reads the whole (sub-1024-byte) file on its
second iteration, so `data` holds two copies of the line list and
`data[-3:]` returns a rotated, duplicated triple instead of the file's
two lines in order. -/
theorem claim_c8_bug :
    adminLogsLines ("a\nb\n".toList) 3 = ["b".toList, "a".toList, "b".toList] ∧
    lastLinesSpec ("a\nb\n".toList) 3 = ["a".toList, "b".toList] ∧
    adminLogsLines ("a\nb\n".toList) 3 ≠ lastLinesSpec ("a\nb\n".toList) 3 :=
  ⟨by decide, by decide, by decide⟩

/-- Claim C3 counterexample: the source never lowercases the captured
token (line 173 stores `token_match.group(1)` as matched), so the body
"Token: AB12CD" followed by the line "1" extracts token "AB12CD", not
the lowercased "ab12cd" the claim states. -/
theorem claim_c3_counterexample :
    extract ("Token: AB12CD\n1".toList) [] = .ok ("AB12CD".toList) ("1".toList) ∧
    extract ("Token: AB12CD\n1".toList) [] ≠ .ok ("ab12cd".toList) ("1".toList) :=
  ⟨by decide, by decide⟩

theorem dropWhile_append_all {p : Char → Bool} {l : List Char} {b : Char} (r : List Char)
    (hl : ∀ a ∈ l, p a = true) (hb : p b = false) :
    List.dropWhile p (l ++ b :: r) = b :: r := by
  induction l with
  | nil => simp [List.dropWhile_cons, hb]
  | cons a l' ih =>
    rw [List.cons_append, List.dropWhile_cons, if_pos (hl a (by simp))]
    exact ih (fun x hx => hl x (by simp [hx]))

theorem takeWhile_append_all {p : Char → Bool} {l : List Char} {b : Char} (r : List Char)
    (hl : ∀ a ∈ l, p a = true) (hb : p b = false) :
    List.takeWhile p (l ++ b :: r) = l := by
  induction l with
  | nil => simp [List.takeWhile_cons, hb]
  | cons a l' ih =>
    rw [List.cons_append, List.takeWhile_cons, if_pos (hl a (by simp))]
    rw [ih (fun x hx => hl x (by simp [hx]))]

theorem foldLower_bounds {c : Char} {k : Nat} (h : foldLower c = k) (hk1 : 97 ≤ k)
    (hk2 : k ≤ 122) : c.toNat = k ∨ (c.toNat = k - 32 ∧ 65 ≤ c.toNat ∧ c.toNat ≤ 90) := by
  unfold foldLower at h
  split at h
  · right
    omega
  · left
    exact h

theorem not_space_of_foldLower {c : Char} {k : Nat} (h : foldLower c = k)
    (hk1 : 97 ≤ k) (hk2 : k ≤ 122) : pySpace c = false := by
  rcases foldLower_bounds h hk1 hk2 with hc | ⟨hc, _, _⟩ <;>
  · unfold pySpace
    simp only [Bool.or_eq_false_iff, decide_eq_false_iff_not]
    omega

theorem hex_not_space {c : Char} (h : hexDigit c = true) : pySpace c = false := by
  unfold hexDigit at h
  unfold pySpace
  simp only [Bool.or_eq_true, Bool.and_eq_true, decide_eq_true_eq] at h
  simp only [Bool.or_eq_false_iff, decide_eq_false_iff_not]
  omega

theorem splitlines_append_line {l : List Char} (r : List Char)
    (hl : ∀ c ∈ l, lineBreak c = false) :
    pySplitlines (l ++ '\n' :: r) = l :: pySplitlines r := by
  induction l with
  | nil =>
    rw [List.nil_append, splitlines_cons_break r (by decide)
      (fun h => absurd h (by decide))]
  | cons c l' ih =>
    rw [List.cons_append, splitlines_cons_nonbreak _ (hl c (by simp)),
      ih (fun x hx => hl x (by simp [hx]))]
    rfl

/-- Claim C3 (amended): for every message whose plain text is a case
variant of "token", optional spaces or tabs, a colon, optional spaces
or tabs, and a hex run of 6 to 32 characters, followed by a newline and
a line that is exactly "1" (ending the text or followed by a further
line terminator), extraction succeeds with the token equal to the hex
run exactly as written — original case preserved, not lowercased — and
decision "1". -/
theorem claim_c3_amended (c1 c2 c3 c4 c5 : Char) (sp1 sp2 hex tl htmlBody : List Char)
    (h1 : foldLower c1 = 116) (h2 : foldLower c2 = 111) (h3 : foldLower c3 = 107)
    (h4 : foldLower c4 = 101) (h5 : foldLower c5 = 110)
    (hsp1 : ∀ c ∈ sp1, c = ' ' ∨ c = '\t')
    (hsp2 : ∀ c ∈ sp2, c = ' ' ∨ c = '\t')
    (hhex : ∀ c ∈ hex, hexDigit c = true)
    (hlen6 : 6 ≤ hex.length) (hlen32 : hex.length ≤ 32)
    (htl : tl = [] ∨ ∃ c' t', tl = c' :: t' ∧ lineBreak c' = true) :
    extract (c1 :: c2 :: c3 :: c4 :: c5 ::
        (sp1 ++ ':' :: (sp2 ++ hex ++ '\n' :: '1' :: tl))) htmlBody =
      .ok hex ['1'] := by
  have hsp1' : ∀ c ∈ sp1, pySpace c = true := by
    intro c hc
    rcases hsp1 c hc with h | h <;> subst h <;> decide
  have hsp2' : ∀ c ∈ sp2, pySpace c = true := by
    intro c hc
    rcases hsp2 c hc with h | h <;> subst h <;> decide
  obtain ⟨hx, hex'', hhex_eq⟩ : ∃ a l', hex = a :: l' := by
    cases hhc : hex with
    | nil => rw [hhc] at hlen6; simp at hlen6
    | cons a l' => exact ⟨a, l', rfl⟩
  have hc1s : pySpace c1 = false := not_space_of_foldLower h1 (by omega) (by omega)
  have hXd : List.dropWhile pySpace (sp2 ++ hex ++ '\n' :: '1' :: tl) =
      hex ++ '\n' :: '1' :: tl := by
    rw [List.append_assoc, hhex_eq, List.cons_append]
    rw [dropWhile_append_all _ hsp2'
      (hex_not_space (hhex hx (by rw [hhex_eq]; simp)))]
  have hXt : List.takeWhile hexDigit (hex ++ '\n' :: '1' :: tl) = hex :=
    takeWhile_append_all _ hhex (by decide)
  have hA : matchTokenAt (c1 :: c2 :: c3 :: c4 :: c5 ::
      (sp1 ++ ':' :: (sp2 ++ hex ++ '\n' :: '1' :: tl))) = some hex := by
    simp only [matchTokenAt]
    rw [if_pos ⟨h1, h2, h3, h4, h5⟩]
    rw [dropWhile_append_all _ hsp1' (by decide)]
    simp only [List.head?_cons, List.tail_cons]
    rw [if_pos trivial, hXd, hXt, List.take_of_length_le hlen32, if_pos hlen6]
  have hB : tokenSearch (c1 :: c2 :: c3 :: c4 :: c5 ::
      (sp1 ++ ':' :: (sp2 ++ hex ++ '\n' :: '1' :: tl))) = some hex := by
    simp only [tokenSearch, hA]
  have hC : tokenOf (c1 :: c2 :: c3 :: c4 :: c5 ::
      (sp1 ++ ':' :: (sp2 ++ hex ++ '\n' :: '1' :: tl))) htmlBody = some hex := by
    unfold tokenOf
    rw [hB]
  have hbl : ∀ c ∈ (c1 :: c2 :: c3 :: c4 :: c5 :: (sp1 ++ ':' :: (sp2 ++ hex))),
      lineBreak c = false := by
    intro c hc
    simp only [List.mem_cons, List.mem_append] at hc
    rcases hc with rfl | rfl | rfl | rfl | rfl | hc | rfl | hc | hc
    · exact not_space_break hc1s
    · exact not_space_break (not_space_of_foldLower h2 (by omega) (by omega))
    · exact not_space_break (not_space_of_foldLower h3 (by omega) (by omega))
    · exact not_space_break (not_space_of_foldLower h4 (by omega) (by omega))
    · exact not_space_break (not_space_of_foldLower h5 (by omega) (by omega))
    · rcases hsp1 c hc with rfl | rfl <;> decide
    · decide
    · rcases hsp2 c hc with rfl | rfl <;> decide
    · exact not_space_break (hex_not_space (hhex c hc))
  have htext : c1 :: c2 :: c3 :: c4 :: c5 ::
      (sp1 ++ ':' :: (sp2 ++ hex ++ '\n' :: '1' :: tl)) =
      (c1 :: c2 :: c3 :: c4 :: c5 :: (sp1 ++ ':' :: (sp2 ++ hex))) ++
        '\n' :: '1' :: tl := by
    simp [List.append_assoc]
  have hE : ∃ X, pySplitlines ('1' :: tl) = ['1'] :: X := by
    rcases htl with rfl | ⟨c', t', rfl, hbrk⟩
    · exact ⟨[], by decide⟩
    · rw [splitlines_cons_nonbreak _ (by decide)]
      by_cases hcr : c' = '\r' ∧ t'.head? = some '\n'
      · obtain ⟨rfl, hh⟩ := hcr
        cases t' with
        | nil => simp at hh
        | cons c'' t'' =>
          have hc'' : c'' = '\n' := by simpa using hh
          subst hc''
          rw [splitlines_crlf]
          exact ⟨pySplitlines t'', rfl⟩
      · rw [splitlines_cons_break t' hbrk (fun ha hb => hcr ⟨ha, hb⟩)]
        exact ⟨pySplitlines t', rfl⟩
  obtain ⟨t1, ht1⟩ := strip_head
    (c2 :: c3 :: c4 :: c5 :: (sp1 ++ ':' :: (sp2 ++ hex))) hc1s
  have hline1 : pyStrip (c1 :: c2 :: c3 :: c4 :: c5 ::
      (sp1 ++ ':' :: (sp2 ++ hex))) ≠ ['1'] ∧
      pyStrip (c1 :: c2 :: c3 :: c4 :: c5 :: (sp1 ++ ':' :: (sp2 ++ hex))) ≠ ['2'] := by
    constructor
    · intro he
      rw [ht1] at he
      have hc1 : c1 = '1' := (List.cons.injEq _ _ _ _ ▸ he).1
      rw [hc1] at h1
      simp [foldLower] at h1
    · intro he
      rw [ht1] at he
      have hc1 : c1 = '2' := (List.cons.injEq _ _ _ _ ▸ he).1
      rw [hc1] at h1
      simp [foldLower] at h1
  have hscan1 : decisionScan (pySplitlines (c1 :: c2 :: c3 :: c4 :: c5 ::
      (sp1 ++ ':' :: (sp2 ++ hex ++ '\n' :: '1' :: tl)))) = some ['1'] := by
    rw [htext, splitlines_append_line _ hbl]
    obtain ⟨X, hX⟩ := hE
    rw [hX, scan_cons_skip _ hline1.1 hline1.2]
    simp [decisionScan, show pyStrip ['1'] = ['1'] from by decide]
  obtain ⟨t0, ht0⟩ := strip_head
    (c2 :: c3 :: c4 :: c5 :: (sp1 ++ ':' :: (sp2 ++ hex ++ '\n' :: '1' :: tl))) hc1s
  have hne : pyStrip (c1 :: c2 :: c3 :: c4 :: c5 ::
      (sp1 ++ ':' :: (sp2 ++ hex ++ '\n' :: '1' :: tl))) ≠ [] := by
    rw [ht0]
    exact List.cons_ne_nil _ _
  have hG : decisionOf (c1 :: c2 :: c3 :: c4 :: c5 ::
      (sp1 ++ ':' :: (sp2 ++ hex ++ '\n' :: '1' :: tl))) htmlBody = some ['1'] := by
    unfold decisionOf
    have hcb : chosenBody (c1 :: c2 :: c3 :: c4 :: c5 ::
        (sp1 ++ ':' :: (sp2 ++ hex ++ '\n' :: '1' :: tl))) htmlBody =
        pyStrip (c1 :: c2 :: c3 :: c4 :: c5 ::
          (sp1 ++ ':' :: (sp2 ++ hex ++ '\n' :: '1' :: tl))) := by
      unfold chosenBody pyOr
      rw [if_neg hne]
    rw [hcb, scan_splitlines_strip, hscan1]
  unfold extract
  rw [hC, hG]

/-- Claim C3 witness: the spec's concrete instance "Token: AB12CD"
followed by the line "1" — extraction succeeds with the hex run as
written and decision "1". -/
theorem claim_c3_amended_witness :
    extract ('T' :: 'o' :: 'k' :: 'e' :: 'n' ::
        ([] ++ ':' :: ([' '] ++ "AB12CD".toList ++ '\n' :: '1' :: []))) [] =
      .ok ("AB12CD".toList) ['1'] :=
  claim_c3_amended 'T' 'o' 'k' 'e' 'n' [] [' '] ("AB12CD".toList) [] []
    (by decide) (by decide) (by decide) (by decide) (by decide)
    (by decide) (by decide) (by decide) (by decide) (by decide)
    (Or.inl rfl)

/-- Claim C9: with either credential empty the Basic-Auth gate accepts
every request; with both set it accepts exactly the headers that start
with "Basic " and whose stripped credential part Base64- and
UTF-8-decodes to a string splitting at its first colon into the
configured user and password.  The check is a total function, so every
malformed header is rejected with `false` rather than an exception. -/
theorem claim_c9 (adminUser adminPass hdr : List Char) :
    ((adminUser = [] ∨ adminPass = []) →
      checkBasicAuth adminUser adminPass hdr = true) ∧
    (adminUser ≠ [] → adminPass ≠ [] →
      (checkBasicAuth adminUser adminPass hdr = true ↔
        ("Basic ".toList).isPrefixOf hdr ∧
          authUserPass hdr = some (adminUser, adminPass))) := by
  constructor
  · intro h
    unfold checkBasicAuth
    rw [if_pos h]
  · intro hu hp
    unfold checkBasicAuth
    rw [if_neg (by simp [hu, hp])]
    by_cases hpre : ("Basic ".toList).isPrefixOf hdr = true
    · rw [if_neg (by rw [hpre]; decide)]
      cases hau : authUserPass hdr with
      | none =>
        constructor
        · intro h
          simp at h
        · rintro ⟨_, h2⟩
          exact Option.noConfusion h2
      | some up =>
        obtain ⟨u, p⟩ := up
        constructor
        · intro h
          simp only [] at h
          rw [Bool.and_eq_true, beq_iff_eq, beq_iff_eq] at h
          exact ⟨hpre, by rw [h.1, h.2]⟩
        · rintro ⟨_, h2⟩
          injection h2 with h3
          simp only []
          rw [Bool.and_eq_true, beq_iff_eq, beq_iff_eq]
          exact ⟨congrArg Prod.fst h3, congrArg Prod.snd h3⟩
    · have hpf : ("Basic ".toList).isPrefixOf hdr = false := by
        cases hb : ("Basic ".toList).isPrefixOf hdr
        · rfl
        · exact absurd hb hpre
      rw [if_pos (by rw [hpf]; decide)]
      constructor
      · intro h
        cases h
      · rintro ⟨h1', _⟩
        exact absurd h1' hpre

/-- Claim C9 witness: with credentials "u"/"p", a well-formed header
carrying the Base64 encoding of "u:p" is accepted; so is one whose
credential part carries a stray leading padding sign, which the lenient
decoder ignores; and the empty credential configuration accepts an
arbitrary header. -/
theorem claim_c9_witness :
    checkBasicAuth ("u".toList) ("p".toList) ("Basic dTpw".toList) = true ∧
    checkBasicAuth ("u".toList) ("p".toList) ("Basic =dTpw".toList) = true ∧
    checkBasicAuth [] ("p".toList) ("no header".toList) = true :=
  ⟨((claim_c9 ("u".toList) ("p".toList) ("Basic dTpw".toList)).2
      (by decide) (by decide)).mpr ⟨by decide, by decide⟩,
    ((claim_c9 ("u".toList) ("p".toList) ("Basic =dTpw".toList)).2
      (by decide) (by decide)).mpr ⟨by decide, by decide⟩,
    (claim_c9 [] ("p".toList) ("no header".toList)).1 (Or.inl rfl)⟩

theorem matchTokenAt_hex {s tk : List Char} (h : matchTokenAt s = some tk) :
    6 ≤ tk.length ∧ tk.length ≤ 32 ∧ ∀ c ∈ tk, hexDigit c = true := by
  unfold matchTokenAt at h
  split at h
  · split at h
    · split at h
      · split at h
        · cases h
          refine ⟨by assumption, ?_, ?_⟩
          · rw [List.length_take]
            exact min_le_left _ _
          · intro x hx
            exact List.mem_takeWhile_imp (List.mem_of_mem_take hx)
        · cases h
      · cases h
    · cases h
  · cases h

theorem tokenSearch_hex : ∀ (s tk : List Char), tokenSearch s = some tk →
    6 ≤ tk.length ∧ tk.length ≤ 32 ∧ ∀ c ∈ tk, hexDigit c = true := by
  intro s
  induction s with
  | nil => intro tk h; cases h
  | cons c rest ih =>
    intro tk h
    simp only [tokenSearch] at h
    cases hm : matchTokenAt (c :: rest) with
    | none =>
      rw [hm] at h
      exact ih tk h
    | some tk' =>
      rw [hm] at h
      cases h
      exact matchTokenAt_hex hm

theorem scan_some (L : List (List Char)) (d : List Char)
    (h : decisionScan L = some d) : d = ['1'] ∨ d = ['2'] := by
  induction L with
  | nil => cases h
  | cons l ls ih =>
    simp only [decisionScan] at h
    split at h
    · cases h
      exact Or.inl rfl
    · split at h
      · cases h
        exact Or.inr rfl
      · exact ih h

theorem fallback_some (body d : List Char) (h : fallbackDecision body = some d) :
    d = ['1'] ∨ d = ['2'] := by
  unfold fallbackDecision at h
  split at h
  · cases h
    exact Or.inl rfl
  · split at h
    · cases h
      exact Or.inr rfl
    · cases h

theorem decisionOf_some {text htmlBody d : List Char}
    (h : decisionOf text htmlBody = some d) : d = ['1'] ∨ d = ['2'] := by
  unfold decisionOf at h
  cases hs : decisionScan (pySplitlines (chosenBody text htmlBody)) with
  | some d' =>
    rw [hs] at h
    cases h
    exact scan_some _ _ hs
  | none =>
    rw [hs] at h
    exact fallback_some _ _ h

theorem tokenOf_hex {text htmlBody tk : List Char} (h : tokenOf text htmlBody = some tk) :
    6 ≤ tk.length ∧ tk.length ≤ 32 ∧ ∀ c ∈ tk, hexDigit c = true := by
  unfold tokenOf at h
  cases ht : tokenSearch text with
  | some tk' =>
    rw [ht] at h
    cases h
    exact tokenSearch_hex _ _ ht
  | none =>
    rw [ht] at h
    exact tokenSearch_hex _ _ h

theorem extract_ok_parts {text htmlBody tk d : List Char}
    (h : extract text htmlBody = .ok tk d) :
    tokenOf text htmlBody = some tk ∧ decisionOf text htmlBody = some d := by
  unfold extract at h
  cases ht : tokenOf text htmlBody with
  | none => rw [ht] at h; cases h
  | some tk' =>
    rw [ht] at h
    cases hd : decisionOf text htmlBody with
    | none => rw [hd] at h; cases h
    | some d' =>
      rw [hd] at h
      cases h
      exact ⟨rfl, rfl⟩

/-- Claim C10: an inbound request either fails extraction and leaves
the store and the decisions counter untouched, or succeeds and writes
exactly one record — filed under its token, overwriting any prior
record with that token — bumping the counter by one; the stored
decision is "1" or "2" and the token a 6-to-32-character hex string,
so the store invariant is preserved by every request. -/
theorem claim_c10 (st : ServerState) (frm toAddr subject text htmlBody : List Char) :
    ((extract text htmlBody = .noToken ∨ extract text htmlBody = .noDecision) →
      (inboundStep st frm toAddr subject text htmlBody).1 = st) ∧
    (∀ tk d, extract text htmlBody = .ok tk d →
      ((inboundStep st frm toAddr subject text htmlBody).1.decisions tk =
          some ⟨tk, d, frm, toAddr, subject⟩ ∧
        (∀ t, t ≠ tk →
          (inboundStep st frm toAddr subject text htmlBody).1.decisions t =
            st.decisions t) ∧
        (inboundStep st frm toAddr subject text htmlBody).1.decisionsTotal =
          st.decisionsTotal + 1 ∧
        (d = ['1'] ∨ d = ['2']) ∧
        6 ≤ tk.length ∧ tk.length ≤ 32 ∧ (∀ c ∈ tk, hexDigit c = true))) ∧
    (storeInv st.decisions →
      storeInv (inboundStep st frm toAddr subject text htmlBody).1.decisions) := by
  cases hx : extract text htmlBody with
  | noToken =>
    refine ⟨fun _ => by simp [inboundStep, hx], ?_, ?_⟩
    · intro tk d h
      cases h
    · intro hinv
      have : (inboundStep st frm toAddr subject text htmlBody).1 = st := by
        simp [inboundStep, hx]
      rw [this]
      exact hinv
  | noDecision =>
    refine ⟨fun _ => by simp [inboundStep, hx], ?_, ?_⟩
    · intro tk d h
      cases h
    · intro hinv
      have : (inboundStep st frm toAddr subject text htmlBody).1 = st := by
        simp [inboundStep, hx]
      rw [this]
      exact hinv
  | ok tk0 d0 =>
    have hparts := extract_ok_parts hx
    have hdprop : d0 = ['1'] ∨ d0 = ['2'] := decisionOf_some hparts.2
    have htprop := tokenOf_hex hparts.1
    have hstep : inboundStep st frm toAddr subject text htmlBody =
        ({ decisions := fun t => if t = tk0 then some ⟨tk0, d0, frm, toAddr, subject⟩
                                 else st.decisions t,
           decisionsTotal := st.decisionsTotal + 1 }, ⟨200, true, none⟩) := by
      unfold inboundStep
      rw [hx]
    refine ⟨?_, ?_, ?_⟩
    · intro h
      rcases h with h | h <;> cases h
    · intro tk d h
      cases h
      rw [hstep]
      refine ⟨by simp, fun t ht => by simp [ht], rfl, hdprop,
        htprop.1, htprop.2.1, htprop.2.2⟩
    · intro hinv
      rw [hstep]
      intro t r hr
      simp only [] at hr
      by_cases ht : t = tk0
      · rw [if_pos ht] at hr
        cases hr
        exact ⟨ht.symm, hdprop, htprop.1, htprop.2.1, htprop.2.2⟩
      · rw [if_neg ht] at hr
        exact hinv t r hr

/-- Claim C10 witness: from the empty store, a successful inbound
message with token "abcdef" and a "1"-line stores exactly that record,
sets the counter to one, and the store invariant holds afterwards. -/
theorem claim_c10_witness :
    (inboundStep ⟨fun _ => none, 0⟩ [] [] [] ("token: abcdef\n1".toList)
        []).1.decisions ("abcdef".toList) =
      some ⟨"abcdef".toList, "1".toList, [], [], []⟩ ∧
    (inboundStep ⟨fun _ => none, 0⟩ [] [] [] ("token: abcdef\n1".toList)
        []).1.decisionsTotal = 0 + 1 ∧
    storeInv (inboundStep ⟨fun _ => none, 0⟩ [] [] []
        ("token: abcdef\n1".toList) []).1.decisions := by
  have hok := (claim_c10 ⟨fun _ => none, 0⟩ [] [] [] ("token: abcdef\n1".toList) []).2.1
    ("abcdef".toList) ("1".toList) (by decide)
  have hinv := (claim_c10 ⟨fun _ => none, 0⟩ [] [] [] ("token: abcdef\n1".toList) []).2.2
    (fun t r hr => Option.noConfusion hr)
  exact ⟨hok.1, hok.2.2.1, hinv⟩
